import Mathlib

/-!
Verification development for the file classification and safe-move engine of
`Sorting_files_by_date` (`src/main.py`).

The engine is shallowly embedded:

* the filesystem seen by the per-file move pipeline is a static, finite list of
  existing entry paths (`List String`); `Path.exists()` is list membership;
* `Path.resolve()`-based canonicalization is modelled as the identity (paths
  are already canonical strings, no symlinks), so `_same_path` is string
  equality;
* Python's decimal formatting `f"{n:03d}"` is modelled by an executable
  renderer `pad3` built on a fuel-based digit printer, with a proved decode
  round-trip;
* the unbounded `while True:` loop of `_unique_dest_path` is modelled with
  fuel `fs.length + 2`; a pigeonhole argument proves this fuel always
  suffices, so the `Option.getD` default is never consulted;
* stateful per-file processing (`Worker.run`'s loop body) is a pure function
  from the pre-state to an outcome and a post-state; the two exception
  sources visible to that loop (a failing `stat()` and a failing
  `shutil.move`) are modelled by an `Except` field and an error oracle on the
  file entry;
* the empty-directory reaper works on a directory tree given as lists of
  directory and file paths, each path a list of components relative to the
  root (the root itself is `[]` and is never listed, mirroring
  `root.rglob("*")`).
-/

set_option maxRecDepth 20000

namespace SortingFiles

/-! ### Decimal rendering, modelling Python's `f"{n:03d}"` -/

/-- The character of a decimal digit. -/
def digChar (d : Nat) : Char := Char.ofNat (48 + d)

/-- Fuel-based decimal digit printer (most significant digit first). -/
def natToDigitsAux : Nat → Nat → List Char → List Char
  | 0, _, acc => acc
  | fuel+1, n, acc =>
    let acc' := digChar (n % 10) :: acc
    if n < 10 then acc' else natToDigitsAux fuel (n / 10) acc'

/-- Decimal rendering of a natural number. -/
def natRepr (n : Nat) : String := ⟨natToDigitsAux (n+1) n []⟩

/-- Python's `f"{n:03d}"`: decimal rendering zero-padded to width at least 3. -/
def pad3 (n : Nat) : String :=
  let s := natRepr n
  if s.length < 3 then (⟨List.replicate (3 - s.length) '0'⟩ : String) ++ s else s

/-- Value of a digit string, most significant digit first. -/
def decodeDigits : List Char → Nat
  | [] => 0
  | c :: cs => (c.toNat - 48) * 10 ^ cs.length + decodeDigits cs

theorem decodeDigits_append (xs ys : List Char) :
    decodeDigits (xs ++ ys) = decodeDigits xs * 10 ^ ys.length + decodeDigits ys := by
  induction xs with
  | nil => simp [decodeDigits]
  | cons c cs ih =>
    simp only [List.cons_append, decodeDigits, ih, List.append_eq, List.length_append, pow_add]
    ring

theorem digChar_toNat {d : Nat} (hd : d < 10) : (digChar d).toNat = 48 + d := by
  interval_cases d <;> decide

theorem natToDigitsAux_acc (fuel : Nat) :
    ∀ n acc, natToDigitsAux fuel n acc = natToDigitsAux fuel n [] ++ acc := by
  induction fuel with
  | zero => intro n acc; simp [natToDigitsAux]
  | succ fuel ih =>
    intro n acc
    by_cases h : n < 10
    · simp [natToDigitsAux, h]
    · simp only [natToDigitsAux, if_neg h]
      rw [ih (n / 10) (digChar (n % 10) :: acc), ih (n / 10) [digChar (n % 10)]]
      simp

theorem decode_natToDigitsAux (fuel : Nat) :
    ∀ n, n < 10 ^ fuel → decodeDigits (natToDigitsAux fuel n []) = n := by
  induction fuel with
  | zero => intro n hn; interval_cases n; simp [natToDigitsAux, decodeDigits]
  | succ fuel ih =>
    intro n hn
    by_cases h : n < 10
    · have : n % 10 = n := Nat.mod_eq_of_lt h
      simp [natToDigitsAux, h, decodeDigits, digChar_toNat (this ▸ Nat.mod_lt n (by omega)), this]
    · simp only [natToDigitsAux, if_neg h]
      rw [natToDigitsAux_acc]
      rw [decodeDigits_append]
      have hdiv : n / 10 < 10 ^ fuel := by
        rw [Nat.div_lt_iff_lt_mul (by omega)]
        calc n < 10 ^ (fuel + 1) := hn
        _ = 10 ^ fuel * 10 := by rw [pow_succ]
      rw [ih (n / 10) hdiv]
      have hmod : n % 10 < 10 := Nat.mod_lt n (by omega)
      simp [decodeDigits, digChar_toNat hmod]
      omega

theorem decode_natRepr (n : Nat) : decodeDigits (natRepr n).data = n := by
  have hn : n < 10 ^ (n + 1) := by
    calc n < 10 ^ n := Nat.lt_pow_self (by omega) n
    _ ≤ 10 ^ (n + 1) := Nat.pow_le_pow_right (by omega) (by omega)
  exact decode_natToDigitsAux (n + 1) n hn

theorem decode_replicate_zero (k : Nat) (xs : List Char) :
    decodeDigits (List.replicate k '0' ++ xs) = decodeDigits xs := by
  induction k with
  | zero => simp
  | succ k ih => simp [List.replicate_succ, decodeDigits, ih]

theorem decode_pad3 (n : Nat) : decodeDigits (pad3 n).data = n := by
  unfold pad3
  by_cases h : (natRepr n).length < 3
  · simp only [if_pos h, String.data_append]
    rw [decode_replicate_zero, decode_natRepr]
  · simp only [if_neg h, decode_natRepr]

theorem pad3_injective : Function.Injective pad3 := by
  intro a b hab
  have := congrArg (fun s => decodeDigits s.data) hab
  simpa [decode_pad3] using this

/-! ### Collision resolver `_unique_dest_path` (src/main.py lines 87-99)

The Python function first probes `dest_dir / f"{stem}{suffix}"` and then, in a
`while True:` loop, `dest_dir / f"{stem}_{n:03d}{suffix}"` for n = 1, 2, …,
returning the first candidate whose `exists()` check fails.  `candName` gives
the n-th probed file name (index 0 is the bare `stem+suffix`), `fullCand` the
full candidate path. -/

/-- The n-th candidate file name probed by `_unique_dest_path`. -/
def candName (stem suffix : String) : Nat → String
  | 0 => stem ++ suffix
  | n+1 => stem ++ "_" ++ pad3 (n+1) ++ suffix

/-- The n-th candidate path probed by `_unique_dest_path`. -/
def fullCand (dir stem suffix : String) (n : Nat) : String :=
  dir ++ "/" ++ candName stem suffix n

theorem underscore_length : ("_" : String).length = 1 := rfl

theorem candName_injective (stem suffix : String) :
    Function.Injective (candName stem suffix) := by
  intro a b hab
  match a, b with
  | 0, 0 => rfl
  | 0, m+1 =>
    exfalso
    have := congrArg String.length hab
    simp only [candName, String.length_append, underscore_length] at this
    omega
  | n+1, 0 =>
    exfalso
    have := congrArg String.length hab
    simp only [candName, String.length_append, underscore_length] at this
    omega
  | n+1, m+1 =>
    have hdata := congrArg String.data hab
    simp only [candName, String.data_append, List.append_assoc] at hdata
    have h1 := List.append_cancel_left hdata
    have h2 := List.append_cancel_left (List.cons.injEq .. ▸ h1).2
    have h3 : (pad3 (n+1)).data = (pad3 (m+1)).data := List.append_cancel_right h2
    have := pad3_injective (String.ext h3)
    omega

theorem fullCand_injective (dir stem suffix : String) :
    Function.Injective (fullCand dir stem suffix) := by
  intro a b hab
  apply candName_injective stem suffix
  apply String.ext
  have hdata := congrArg String.data hab
  simp only [fullCand, String.data_append, List.append_assoc] at hdata
  exact List.append_cancel_left (List.append_cancel_left hdata)

/-- Fuel-based embedding of the probe loop of `_unique_dest_path`: starting at
candidate index `n`, return the first candidate that is not in `fs`, or `none`
when the fuel runs out. -/
def uniqueDestAux (fs : List String) (dir stem suffix : String) : Nat → Nat → Option String
  | 0, _ => none
  | fuel+1, n =>
    let candidate := fullCand dir stem suffix n
    if fs.contains candidate then uniqueDestAux fs dir stem suffix fuel (n+1)
    else some candidate

theorem uniqueDestAux_eq_none (fs : List String) (dir stem suffix : String) :
    ∀ fuel n, uniqueDestAux fs dir stem suffix fuel n = none →
      ∀ j < fuel, fullCand dir stem suffix (n + j) ∈ fs := by
  intro fuel
  induction fuel with
  | zero => intro n _ j hj; omega
  | succ fuel ih =>
    intro n h j hj
    simp only [uniqueDestAux] at h
    by_cases hc : fs.contains (fullCand dir stem suffix n)
    · rw [if_pos hc] at h
      match j with
      | 0 => simpa using hc
      | j+1 =>
        have := ih (n+1) h j (by omega)
        simpa [Nat.add_comm, Nat.add_assoc, Nat.add_left_comm] using this
    · rw [if_neg hc] at h
      exact absurd h (by simp)

theorem uniqueDestAux_eq_some (fs : List String) (dir stem suffix : String) :
    ∀ fuel n c, uniqueDestAux fs dir stem suffix fuel n = some c →
      fs.contains c = false ∧ ∃ j, c = fullCand dir stem suffix (n + j) := by
  intro fuel
  induction fuel with
  | zero => intro n c h; simp [uniqueDestAux] at h
  | succ fuel ih =>
    intro n c h
    simp only [uniqueDestAux] at h
    by_cases hc : fs.contains (fullCand dir stem suffix n)
    · rw [if_pos hc] at h
      obtain ⟨h1, j, h2⟩ := ih (n+1) c h
      exact ⟨h1, j + 1, by rw [h2]; ring_nf⟩
    · rw [if_neg hc] at h
      obtain rfl : fullCand dir stem suffix n = c := Option.some.inj h
      exact ⟨by simpa using hc, 0, by simp⟩

/-- The probe loop always finds a free candidate within `fs.length + 2` steps:
the candidates are pairwise distinct, so at most `fs.length` of them can be
occupied. -/
theorem uniqueDestAux_isSome (fs : List String) (dir stem suffix : String) :
    (uniqueDestAux fs dir stem suffix (fs.length + 2) 0).isSome = true := by
  rcases h : uniqueDestAux fs dir stem suffix (fs.length + 2) 0 with _ | c
  · exfalso
    have hall := uniqueDestAux_eq_none fs dir stem suffix (fs.length + 2) 0 h
    have hsub : (Finset.range (fs.length + 2)).image (fullCand dir stem suffix) ⊆ fs.toFinset := by
      intro x hx
      rw [Finset.mem_image] at hx
      obtain ⟨j, hj, rfl⟩ := hx
      rw [Finset.mem_range] at hj
      rw [List.mem_toFinset]
      simpa using hall j hj
    have hcard := Finset.card_le_card hsub
    rw [Finset.card_image_of_injective _ (fullCand_injective dir stem suffix),
      Finset.card_range] at hcard
    have := List.toFinset_card_le fs
    omega
  · rfl

/-- Shallow embedding of `_unique_dest_path` (src/main.py lines 87-99), the
`while True:` loop run with fuel `fs.length + 2`; by `uniqueDestAux_isSome`
the fallback value of `Option.getD` is never consulted. -/
def _unique_dest_path (fs : List String) (dest_dir stem suffix : String) : String :=
  (uniqueDestAux fs dest_dir stem suffix (fs.length + 2) 0).getD
    (fullCand dest_dir stem suffix 0)

/-- The path returned by `_unique_dest_path` never exists in the filesystem
(the function's own docstring: no file is ever overwritten). -/
theorem unique_dest_path_not_mem (fs : List String) (dir stem suffix : String) :
    fs.contains (_unique_dest_path fs dir stem suffix) = false := by
  unfold _unique_dest_path
  rcases h : uniqueDestAux fs dir stem suffix (fs.length + 2) 0 with _ | c
  · exact absurd (h ▸ uniqueDestAux_isSome fs dir stem suffix) (by simp)
  · simpa using (uniqueDestAux_eq_some fs dir stem suffix (fs.length + 2) 0 c h).1

/-! ### Size bucketer `get_size_folder_name` (src/main.py lines 68-84)

Python computes `n = size_bytes / divisor` as the correctly-rounded binary64
quotient of the two integers.  `get_size_folder_name` below replaces that
division by the exact natural floor `size_bytes / divisor`: the two agree
for every size below 2^53 (such a size is exactly representable, and
dividing it by the power-of-two divisor only shifts its exponent), but they
can differ for larger sparse-file sizes, where rounding the quotient to 53
significant bits can carry it across a bucket boundary.
`get_size_folder_name_f64` further below models the binary64 rounding
faithfully and exhibits the divergence. -/

/-- The unit tiers iterated by the `for divisor, name in …` loop, in source
order (GB, MB, KB). -/
def sizeTiers : List (Nat × String) := [(1024^3, "ГБ"), (1024^2, "МБ"), (1024, "КБ")]

/-- The bucket rounding of the loop body (lines 75-82), including the
redundant `else` branch for `n < 1`. -/
def bucketOf (n : Nat) : Nat :=
  if n ≥ 100 then n / 100 * 100
  else if n ≥ 10 then n / 10 * 10
  else if n ≥ 1 then 1
  else 1

/-- Shallow embedding of `get_size_folder_name` (src/main.py lines 68-84). -/
def get_size_folder_name (size_bytes : Nat) : String :=
  if size_bytes < 1024 then "< 1 КБ"
  else
    match sizeTiers.find? (fun t => size_bytes ≥ t.1) with
    | some (divisor, name) => natRepr (bucketOf (size_bytes / divisor)) ++ " " ++ name
    | none => "< 1 КБ"

/-- The size-bucket rule as the spec's words state it (§4.2): below 1024
bytes a literal label; otherwise select the largest applicable 1024-based
unit (GB, then MB, then KB), let `n = bytes / divisor`, and round down — to
the nearest lower multiple of 100 when `n ≥ 100`, of 10 when `10 ≤ n < 100`,
and to bucket value 1 when `1 ≤ n < 10`. -/
def sizeLabelSpec (bytes : Nat) : String :=
  if bytes < 1024 then "< 1 КБ"
  else
    let p := if bytes ≥ 1024^3 then ((1024^3 : Nat), ("ГБ" : String))
             else if bytes ≥ 1024^2 then ((1024^2 : Nat), ("МБ" : String))
             else ((1024 : Nat), ("КБ" : String))
    let n := bytes / p.1
    let bucket := if n ≥ 100 then n / 100 * 100 else if n ≥ 10 then n / 10 * 10 else 1
    natRepr bucket ++ " " ++ p.2

/-- Round `x / y` to the nearest integer, ties to even (the IEEE-754 default
rounding applied to an integer target). -/
def rne (x y : Nat) : Nat :=
  let q := x / y
  let r := x % y
  if 2 * r < y then q
  else if y < 2 * r then q + 1
  else if q % 2 = 0 then q else q + 1

/-- Fuel-based floor of the base-2 logarithm. -/
def log2Aux : Nat → Nat → Nat
  | 0, _ => 0
  | fuel+1, n => if 2 ≤ n then log2Aux fuel (n / 2) + 1 else 0

/-- `⌊log2 n⌋` for `n ≥ 1` (fuel `n` always suffices, as the argument
halves). -/
def log2floor (n : Nat) : Nat := log2Aux n n

/-- The binary64 value CPython's `int.__truediv__` produces for
`size_bytes / divisor` (line 74): the true quotient `a / b` correctly
rounded to 53 significant bits, round-to-nearest, ties-to-even.  The value
is returned exactly, as the dyadic numerator `num` of `num / 2^52`.  Every
call site has `1 ≤ divisor ≤ size_bytes` (the guard on line 73), so the
quotient is at least 1; for `b = 0` or `a < b` the function returns 0, a
case the engine never reaches.  Exponent overflow is not modelled — it needs
a quotient of 2^1024, far beyond any file size. -/
def fdivRNE (a b : Nat) : Nat :=
  if b = 0 ∨ a < b then 0
  else
    let e := log2floor (a / b)
    rne (a * 2 ^ 52) (b * 2 ^ e) * 2 ^ e

/-- Float-faithful embedding of `get_size_folder_name` (src/main.py lines
68-84): `n` is the binary64 quotient, carried as its exact dyadic value
`num / 2^52`.  The comparisons `n >= 100` and `n >= 10` are exact in
binary64 (`num ≥ c·2^52`), and `int(n // c)` equals the floor of `n`'s
exact value (`num / (c·2^52)` in natural division) for every size below
2^64 — beyond every mainstream filesystem's limit — since there
`n < 2^54` and binary64 floor division by 100 or 10 incurs no rounding.
The redundant `n >= 1` branch of lines 79-82 is kept. -/
def get_size_folder_name_f64 (size_bytes : Nat) : String :=
  if size_bytes < 1024 then "< 1 КБ"
  else
    match sizeTiers.find? (fun t => size_bytes ≥ t.1) with
    | some (divisor, name) =>
      let num := fdivRNE size_bytes divisor
      let bucket :=
        if num ≥ 100 * 2 ^ 52 then num / (100 * 2 ^ 52) * 100
        else if num ≥ 10 * 2 ^ 52 then num / (10 * 2 ^ 52) * 10
        else if num ≥ 2 ^ 52 then 1
        else 1
      natRepr bucket ++ " " ++ name
    | none => "< 1 КБ"

/-! ### Timestamp resolver `get_file_date` (src/main.py lines 43-51) -/

/-- A date, the only part of the resolved timestamp the engine consumes. -/
structure Date where
  year : Nat
  month : Nat
  day : Nat
deriving DecidableEq, Repr

instance {ε α : Type} [DecidableEq ε] [DecidableEq α] : DecidableEq (Except ε α) := fun a b =>
  match a, b with
  | .error e, .error f => decidable_of_iff (e = f) (by simp)
  | .error _, .ok _ => isFalse (by simp)
  | .ok _, .error _ => isFalse (by simp)
  | .ok x, .ok y => decidable_of_iff (x = y) (by simp)

/-- Result of a successful `Path.stat()`: the optional creation timestamp
(`none` when the platform lacks `st_birthtime`; `some (.error _)` when
`datetime.fromtimestamp(st_birthtime)` raises), the modification timestamp,
and `st_size`.  Timestamps are modelled by the date they convert to. -/
structure FileStat where
  birthtime : Option (Except Unit Date)
  mtime : Date
  size : Nat
deriving DecidableEq, Repr

/-- Shallow embedding of `get_file_date` (src/main.py lines 43-51).  The
`statResult` argument is the outcome of the `file_path.stat()` call on line
45: that call sits outside the `try:` block, so its failure (for example the
file vanished between the caller's existence check and the `stat`) propagates
to the caller.  Only the `st_birthtime` conversion is guarded by
`try/except`. -/
def get_file_date (statResult : Except String FileStat) (use_creation : Bool) :
    Except String Date :=
  match statResult with
  | .error e => .error e
  | .ok st =>
    if use_creation then
      match st.birthtime with
      | some (.ok t) => .ok t
      | some (.error _) => .ok st.mtime
      | none => .ok st.mtime
    else .ok st.mtime

/-! ### Path planner (src/main.py lines 171-189) -/

/-- Python's `%02d`-style zero-padding to width 2 (strftime `%m`, `%d`). -/
def pad2 (n : Nat) : String :=
  let s := natRepr n
  if s.length < 2 then (⟨List.replicate (2 - s.length) '0'⟩ : String) ++ s else s

/-- Zero-padding to width 4 (strftime `%Y`). -/
def pad4 (n : Nat) : String :=
  let s := natRepr n
  if s.length < 4 then (⟨List.replicate (4 - s.length) '0'⟩ : String) ++ s else s

/-- `dt.strftime("%Y_%m_%d")` (src/main.py line 173). -/
def formatYMD (d : Date) : String :=
  pad4 d.year ++ "_" ++ pad2 d.month ++ "_" ++ pad2 d.day

/-- `dt.strftime("%d_%m_%Y")` (src/main.py line 175). -/
def formatDMY (d : Date) : String :=
  pad2 d.day ++ "_" ++ pad2 d.month ++ "_" ++ pad4 d.year

/-- `_same_path` (src/main.py lines 102-107): `Path.resolve()`-based
canonicalization is modelled as the identity on the already-canonical path
strings, so the same-file check is string equality. -/
def _same_path (p1 p2 : String) : Bool := p1 == p2

/-- The run configuration of a `Worker` (src/main.py lines 137-152). -/
structure Config where
  folder_format : String
  sort_by_extension : Bool
  sort_by_size : Bool
  delete_empty_dirs : Bool
deriving DecidableEq, Repr

/-- One entry of the worker's file list.  `path`, `name`, `stem` and
`suffix` are the `pathlib.Path` attributes of the source path; `statResult`
is the outcome of `Path.stat()` on it; `moveFails` injects an operational
failure of `shutil.move` (permission denied, disk full, I/O error): `some e`
makes the move raise `e`.  The move is an atomic same-filesystem rename, so
a failing move leaves the filesystem unchanged. -/
structure FileEntry where
  path : String
  name : String
  stem : String
  suffix : String
  statResult : Except String FileStat
  moveFails : Option String
deriving DecidableEq, Repr

/-- Extension folder name (src/main.py lines 180-181):
`(file_path.suffix or "").upper().lstrip(".")`, or the literal no-extension
label when that is empty. -/
def extFolder (suffix : String) : String :=
  let ext := (suffix.toUpper).dropWhile (fun c => c == '.')
  if ext == "" then "без расширения" else ext

/-- Destination directory for a file (src/main.py lines 177-187): the date
folder under the root, then optionally the extension folder, then optionally
the size folder. -/
def destDirFor (root : String) (cfg : Config) (folder_name : String)
    (suffix : String) (size : Nat) : String :=
  let d0 := root ++ "/" ++ folder_name
  let d1 := if cfg.sort_by_extension then d0 ++ "/" ++ extFolder suffix else d0
  if cfg.sort_by_size then d1 ++ "/" ++ get_size_folder_name size else d1

/-! ### Move executor `Worker.run` (src/main.py lines 154-252) -/

/-- The per-file outcome of the move executor. -/
inductive Outcome where
  | movedTo (dest : String)
  | skippedNotFound
  | skippedInPlace
  | skippedNoFreeName
  | errored (msg : String)
deriving DecidableEq, Repr

/-- Result of the bounded pre-move re-verification loop. -/
inductive Reverify where
  | free
  | inPlace
  | noFreeName
deriving DecidableEq, Repr

/-- The bounded pre-move re-verification loop (src/main.py lines 202-217):
`for _ in range(1000)` re-checking that the chosen destination is still free
and not the source itself, recomputing the name on a hit, with the
`for … else` clause reporting no-free-name on exhaustion. -/
def reverifyAux (fs : List String) (src dir stem suffix : String) :
    Nat → String → Reverify × String
  | 0, dest => (.noFreeName, dest)
  | k+1, dest =>
    if fs.contains dest = false then (.free, dest)
    else if _same_path src dest then (.inPlace, dest)
    else reverifyAux fs src dir stem suffix k (_unique_dest_path fs dir stem suffix)

/-- One iteration of the per-file loop of `Worker.run` (src/main.py lines
161-238): the outcome for the file together with the filesystem after the
step.  `mkdir(parents=True, exist_ok=True)` on line 189 is not tracked:
within one run's fixed configuration every directory it creates has strictly
fewer path components than any probed candidate file path, so the two never
collide, and re-creating an existing directory is a no-op.  The worker stats
the file twice (line 171 for the date, line 185 for the size); on the static
filesystem both calls yield the same `FileStat`. -/
def processFile (root : String) (cfg : Config) (fs : List String) (f : FileEntry) :
    Outcome × List String :=
  if fs.contains f.path = false then (.skippedNotFound, fs)
  else
    match f.statResult with
    | .error e => (.errored (f.name ++ ": " ++ e), fs)
    | .ok st =>
      match get_file_date (.ok st) true with
      | .error e => (.errored (f.name ++ ": " ++ e), fs)
      | .ok dt =>
        let folder_name :=
          if cfg.folder_format == "YYYY_MM_DD" then formatYMD dt else formatDMY dt
        let dest_dir := destDirFor root cfg folder_name f.suffix st.size
        let dest_file := _unique_dest_path fs dest_dir f.stem f.suffix
        if _same_path f.path dest_file then (.skippedInPlace, fs)
        else
          match reverifyAux fs f.path dest_dir f.stem f.suffix 1000 dest_file with
          | (.noFreeName, _) => (.skippedNoFreeName, fs)
          | (.inPlace, _) => (.skippedInPlace, fs)
          | (.free, d) =>
            if _same_path f.path d then (.skippedInPlace, fs)
            else
              match f.moveFails with
              | some e => (.errored (f.name ++ ": " ++ e), fs)
              | none => (.movedTo d, d :: fs.erase f.path)

/-- The mutable state of one `Worker.run` batch: the filesystem and the
`moved`/`skipped`/`errors` tallies (src/main.py lines 156-159). -/
structure RunState where
  fs : List String
  moved : Nat
  skipped : Nat
  errors : List String
deriving DecidableEq, Repr

/-- One per-file step of `Worker.run`: exactly one of the three tallies is
advanced, matching lines 167-169, 196-198, 206-217, 222-225, 233-238. -/
def stepWorker (root : String) (cfg : Config) (s : RunState) (f : FileEntry) : RunState :=
  match processFile root cfg s.fs f with
  | (.movedTo _, fs') => { s with fs := fs', moved := s.moved + 1 }
  | (.errored m, fs') => { s with fs := fs', errors := s.errors ++ [m] }
  | (_, fs') => { s with fs := fs', skipped := s.skipped + 1 }

/-- The batch loop of `Worker.run` over the file list, in list order. -/
def runWorker (root : String) (cfg : Config) (fs0 : List String)
    (files : List FileEntry) : RunState :=
  files.foldl (stepWorker root cfg) ⟨fs0, 0, 0, []⟩

/-- One entry of the execution trace: the filesystem before the step, the
file processed, its outcome, and the filesystem after the step. -/
structure Step where
  pre : List String
  file : FileEntry
  outcome : Outcome
  post : List String
deriving DecidableEq, Repr

/-- Execution trace of the batch loop: one `Step` per input file. -/
def runTrace (root : String) (cfg : Config) : List String → List FileEntry → List Step
  | _, [] => []
  | fs, f :: rest =>
    let r := processFile root cfg fs f
    ⟨fs, f, r.1, r.2⟩ :: runTrace root cfg r.2 rest

/-! ### Per-step properties of the move executor -/

theorem reverifyAux_free (fs : List String) (src dir stem suffix : String) :
    ∀ fuel dest d, reverifyAux fs src dir stem suffix fuel dest = (.free, d) →
      fs.contains d = false := by
  intro fuel
  induction fuel with
  | zero => intro dest d h; simp [reverifyAux] at h
  | succ k ih =>
    intro dest d h
    simp only [reverifyAux] at h
    by_cases h1 : fs.contains dest = false
    · rw [if_pos h1] at h
      obtain ⟨-, rfl⟩ := Prod.mk.injEq .. ▸ h
      exact h1
    · rw [if_neg h1] at h
      by_cases h2 : _same_path src dest
      · simp [h2] at h
      · rw [if_neg h2] at h
        exact ih _ d h

/-- Case analysis of one per-file step: a move adds the (previously absent)
destination and removes exactly the source; an error leaves the filesystem
unchanged and is tagged with the file's name; every skip leaves the
filesystem unchanged. -/
theorem processFile_spec (root : String) (cfg : Config) (fs : List String) (f : FileEntry) :
    match processFile root cfg fs f with
    | (.movedTo d, fs') => fs.contains d = false ∧ fs' = d :: fs.erase f.path
    | (.errored m, fs') => fs' = fs ∧ ∃ e, m = f.name ++ ": " ++ e
    | (_, fs') => fs' = fs := by
  rcases hp : processFile root cfg fs f with ⟨o, fs'⟩
  unfold processFile at hp
  simp only [] at hp
  repeat' split at hp
  all_goals injection hp with h1 h2
  all_goals subst h2
  all_goals subst h1
  all_goals first
    | exact rfl
    | exact ⟨rfl, _, rfl⟩
    | exact ⟨reverifyAux_free fs f.path _ f.stem f.suffix 1000 _ _ (by assumption), rfl⟩

theorem runTrace_length (root : String) (cfg : Config) :
    ∀ (files : List FileEntry) (fs0 : List String),
      (runTrace root cfg fs0 files).length = files.length := by
  intro files
  induction files with
  | nil => intro fs0; rfl
  | cons f rest ih => intro fs0; simp [runTrace, ih]

theorem runTrace_step (root : String) (cfg : Config) :
    ∀ (files : List FileEntry) (fs0 : List String) (s : Step),
      s ∈ runTrace root cfg fs0 files →
      processFile root cfg s.pre s.file = (s.outcome, s.post) := by
  intro files
  induction files with
  | nil => intro fs0 s hs; simp [runTrace] at hs
  | cons f rest ih =>
    intro fs0 s hs
    simp only [runTrace, List.mem_cons] at hs
    rcases hs with rfl | hs
    · rfl
    · exact ih _ s hs

theorem runWorker_errors_aux (root : String) (cfg : Config) :
    ∀ (files : List FileEntry) (fs0 : List String) (m0 k0 : Nat) (errs0 : List String),
      (List.foldl (stepWorker root cfg) ⟨fs0, m0, k0, errs0⟩ files).errors
        = errs0 ++ (runTrace root cfg fs0 files).filterMap
            (fun s => match s.outcome with | .errored m => some m | _ => none) := by
  intro files
  induction files with
  | nil => intro fs0 m0 k0 errs0; simp [runTrace]
  | cons f rest ih =>
    intro fs0 m0 k0 errs0
    rcases hp : processFile root cfg fs0 f with ⟨o, fs'⟩
    cases o with
    | movedTo d =>
      simp only [List.foldl_cons, stepWorker, hp, runTrace, List.filterMap_cons]
      exact ih fs' (m0+1) k0 errs0
    | errored m =>
      simp only [List.foldl_cons, stepWorker, hp, runTrace, List.filterMap_cons]
      rw [ih fs' m0 k0 (errs0 ++ [m])]
      simp
    | skippedNotFound =>
      simp only [List.foldl_cons, stepWorker, hp, runTrace, List.filterMap_cons]
      exact ih fs' m0 (k0+1) errs0
    | skippedInPlace =>
      simp only [List.foldl_cons, stepWorker, hp, runTrace, List.filterMap_cons]
      exact ih fs' m0 (k0+1) errs0
    | skippedNoFreeName =>
      simp only [List.foldl_cons, stepWorker, hp, runTrace, List.filterMap_cons]
      exact ih fs' m0 (k0+1) errs0

theorem runWorker_counts_aux (root : String) (cfg : Config) :
    ∀ (files : List FileEntry) (s : RunState),
      (List.foldl (stepWorker root cfg) s files).moved
        + (List.foldl (stepWorker root cfg) s files).skipped
        + (List.foldl (stepWorker root cfg) s files).errors.length
      = s.moved + s.skipped + s.errors.length + files.length := by
  intro files
  induction files with
  | nil => intro s; simp
  | cons f rest ih =>
    intro s
    rcases hp : processFile root cfg s.fs f with ⟨o, fs'⟩
    cases o <;>
      · simp only [List.foldl_cons, stepWorker, hp, ih]
        simp
        omega

/-- A directory content consisting of the first `k+1` collision candidates
themselves (the names `stem+suffix`, `stem_001+suffix`, …). -/
def collFs (dir stem suffix : String) (k : Nat) : List String :=
  (List.range (k+1)).map (fullCand dir stem suffix)

theorem collFs_length (dir stem suffix : String) (k : Nat) :
    (collFs dir stem suffix k).length = k + 1 := by simp [collFs]

theorem uniqueDestAux_collFs_none (dir stem suffix : String) (k : Nat) :
    ∀ fuel n, fuel + n ≤ k + 1 →
      uniqueDestAux (collFs dir stem suffix k) dir stem suffix fuel n = none := by
  intro fuel
  induction fuel with
  | zero => intro n _; rfl
  | succ fuel ih =>
    intro n hn
    have hmem : fullCand dir stem suffix n ∈ collFs dir stem suffix k := by
      simp only [collFs, List.mem_map]
      exact ⟨n, List.mem_range.mpr (by omega), rfl⟩
    simp only [uniqueDestAux]
    rw [if_pos (by simpa using hmem)]
    exact ih (n+1) (by omega)

theorem uniqueDestAux_collFs_succ (dir stem suffix : String) (k : Nat) :
    ∀ fuel n, n ≤ k + 1 → k + 2 ≤ fuel + n →
      uniqueDestAux (collFs dir stem suffix k) dir stem suffix fuel n
        = some (fullCand dir stem suffix (k+1)) := by
  intro fuel
  induction fuel with
  | zero => intro n h1 h2; omega
  | succ fuel ih =>
    intro n h1 h2
    by_cases hn : n = k + 1
    · subst hn
      have hnot : fullCand dir stem suffix (k+1) ∉ collFs dir stem suffix k := by
        simp only [collFs, List.mem_map]
        rintro ⟨x, hx, heq⟩
        have := fullCand_injective dir stem suffix heq
        have := List.mem_range.mp hx
        omega
      simp only [uniqueDestAux]
      rw [if_neg (by simpa using hnot)]
    · have hmem : fullCand dir stem suffix n ∈ collFs dir stem suffix k := by
        simp only [collFs, List.mem_map]
        exact ⟨n, List.mem_range.mpr (by omega), rfl⟩
      simp only [uniqueDestAux]
      rw [if_pos (by simpa using hmem)]
      exact ih (n+1) (by omega) (by omega)

theorem unique_dest_path_collFs (dir stem suffix : String) (k : Nat) :
    _unique_dest_path (collFs dir stem suffix k) dir stem suffix
      = fullCand dir stem suffix (k+1) := by
  rw [_unique_dest_path, collFs_length]
  rw [uniqueDestAux_collFs_succ dir stem suffix k (k+3) 0 (by omega) (by omega)]
  rfl

/-! ### Empty-directory reaper `remove_empty_dirs` (src/main.py lines 110-127) -/

/-- A directory tree as seen by the reaper: the paths of the directories and
files strictly below the root, as component lists relative to the root
(`[]` is the root itself; it is never listed, mirroring `root.rglob("*")`). -/
structure DirTree where
  dirs : List (List String)
  files : List (List String)
deriving DecidableEq, Repr

/-- `a` is an initial segment of `b` (path ancestor-or-self). -/
def isAncestor : List String → List String → Bool
  | [], _ => true
  | _ :: _, [] => false
  | a :: as, b :: bs => a == b && isAncestor as bs

/-- `c` is a direct entry (immediate child path) of `d`. -/
def isChildOf (c d : List String) : Bool :=
  (c.length == d.length + 1) && isAncestor d c

/-- `any(d.iterdir())` (line 119): `d` has at least one entry, directory or
file. -/
def hasEntry (t : DirTree) (d : List String) : Bool :=
  t.dirs.any (fun c => isChildOf c d) || t.files.any (fun c => isChildOf c d)

/-- The subtree of `d` contains no file: hereditary emptiness, i.e. nothing
of `d` remains once all its empty descendants are pruned. -/
def subtreeEmptyB (files : List (List String)) (d : List String) : Bool :=
  !(files.any (fun f => isAncestor d f))

/-- Insertion into a list sorted by descending depth, modelling
`dirs.sort(key=lambda p: len(p.parts), reverse=True)` (line 115).  Stability
of the sort is irrelevant: only the element set and the depth order are
consumed. -/
def insertDepth (d : List String) : List (List String) → List (List String)
  | [] => [d]
  | e :: rest => if e.length ≤ d.length then d :: e :: rest else e :: insertDepth d rest

/-- Sort by descending depth (line 115). -/
def sortDepthDesc : List (List String) → List (List String)
  | [] => []
  | d :: rest => insertDepth d (sortDepthDesc rest)

/-- One pass of the reaper (lines 117-124) over the snapshot list: remove
every currently-entryless directory, counting removals and recording whether
any removal happened.  `rmfail d = true` models a per-directory `OSError` of
`rmdir` (swallowed by the `except` clause, line 123-124); a directory that
already vanished raises at `iterdir` and is skipped the same way. -/
def reapPass (rmfail : List String → Bool) :
    List (List String) → DirTree → DirTree × Nat × Bool
  | [], t => (t, 0, false)
  | d :: rest, t =>
    if t.dirs.contains d then
      if hasEntry t d then reapPass rmfail rest t
      else if rmfail d then reapPass rmfail rest t
      else
        ((reapPass rmfail rest ⟨t.dirs.erase d, t.files⟩).1,
         (reapPass rmfail rest ⟨t.dirs.erase d, t.files⟩).2.1 + 1, true)
    else reapPass rmfail rest t

/-- The `while True:` loop of `remove_empty_dirs` (lines 113-126), with fuel;
`none` when the fuel is exhausted before a pass removes nothing. -/
def reapLoop (rmfail : List String → Bool) : Nat → DirTree → Option (DirTree × Nat)
  | 0, _ => none
  | fuel+1, t =>
    if (reapPass rmfail (sortDepthDesc t.dirs) t).2.2 then
      match reapLoop rmfail fuel (reapPass rmfail (sortDepthDesc t.dirs) t).1 with
      | some (t', n) => some (t', (reapPass rmfail (sortDepthDesc t.dirs) t).2.1 + n)
      | none => none
    else some ((reapPass rmfail (sortDepthDesc t.dirs) t).1,
               (reapPass rmfail (sortDepthDesc t.dirs) t).2.1)

/-- Shallow embedding of `remove_empty_dirs` (lines 110-127): the loop run
with fuel `t.dirs.length + 1`, which `remove_empty_dirs_isSome` proves
sufficient (a pass that does not break removes at least one directory). -/
def remove_empty_dirs (rmfail : List String → Bool) (t : DirTree) : Option (DirTree × Nat) :=
  reapLoop rmfail (t.dirs.length + 1) t

/-- The no-failure oracle: every `rmdir` succeeds. -/
def noFail : List String → Bool := fun _ => false

theorem reapPass_measure (rmfail : List String → Bool) :
    ∀ (l : List (List String)) (t : DirTree),
      (reapPass rmfail l t).1.dirs.length + (reapPass rmfail l t).2.1 = t.dirs.length
      ∧ ((reapPass rmfail l t).2.2 = true → 1 ≤ (reapPass rmfail l t).2.1)
      ∧ (reapPass rmfail l t).1.files = t.files := by
  intro l
  induction l with
  | nil => intro t; exact ⟨rfl, by simp [reapPass], rfl⟩
  | cons d rest ih =>
    intro t
    by_cases hc : d ∈ t.dirs
    · by_cases he : hasEntry t d = true
      · simpa [reapPass, hc, he] using ih t
      · by_cases hr : rmfail d = true
        · simpa [reapPass, hc, he, hr] using ih t
        · have herase : (t.dirs.erase d).length = t.dirs.length - 1 :=
            List.length_erase_of_mem hc
          have hpos : 0 < t.dirs.length := List.length_pos.mpr (by
            intro hnil; rw [hnil] at hc; simp at hc)
          obtain ⟨ih1, -, ih3⟩ := ih ⟨t.dirs.erase d, t.files⟩
          simp only [] at ih1 ih3
          rw [herase] at ih1
          refine ⟨?_, fun _ => ?_, ?_⟩ <;> simp [reapPass, hc, he, hr, ih3] <;> omega
    · simpa [reapPass, hc] using ih t

theorem reapLoop_isSome (rmfail : List String → Bool) :
    ∀ (fuel : Nat) (t : DirTree), t.dirs.length < fuel →
      (reapLoop rmfail fuel t).isSome = true := by
  intro fuel
  induction fuel with
  | zero => intro t ht; omega
  | succ fuel ih =>
    intro t ht
    obtain ⟨h1, h2, -⟩ := reapPass_measure rmfail (sortDepthDesc t.dirs) t
    by_cases hb : (reapPass rmfail (sortDepthDesc t.dirs) t).2.2
    · have hlt : (reapPass rmfail (sortDepthDesc t.dirs) t).1.dirs.length < fuel := by
        have := h2 hb
        omega
      have := ih (reapPass rmfail (sortDepthDesc t.dirs) t).1 hlt
      rcases hr : reapLoop rmfail fuel (reapPass rmfail (sortDepthDesc t.dirs) t).1 with
        _ | ⟨t', n⟩
      · rw [hr] at this; simp at this
      · simp [reapLoop, hb, hr]
    · simp [reapLoop, hb]

/-- The reaper terminates: the fuel `t.dirs.length + 1` always suffices. -/
theorem remove_empty_dirs_isSome (rmfail : List String → Bool) (t : DirTree) :
    (remove_empty_dirs rmfail t).isSome = true :=
  reapLoop_isSome rmfail (t.dirs.length + 1) t (by omega)

theorem isAncestor_iff : ∀ (a b : List String),
    isAncestor a b = true ↔ a.length ≤ b.length ∧ b.take a.length = a := by
  intro a
  induction a with
  | nil => intro b; simp [isAncestor]
  | cons x as ih =>
    intro b
    cases b with
    | nil => simp [isAncestor]
    | cons y bs =>
      simp only [isAncestor, Bool.and_eq_true, beq_iff_eq, ih bs, List.length_cons,
        List.take_succ_cons, List.cons.injEq]
      constructor
      · rintro ⟨rfl, h1, h2⟩
        exact ⟨by omega, rfl, h2⟩
      · rintro ⟨h1, rfl, h2⟩
        exact ⟨rfl, by omega, h2⟩

theorem isAncestor_length {a b : List String} (h : isAncestor a b = true) :
    a.length ≤ b.length :=
  ((isAncestor_iff a b).mp h).1

theorem isAncestor_trans {a b c : List String} (h1 : isAncestor a b = true)
    (h2 : isAncestor b c = true) : isAncestor a c = true := by
  rw [isAncestor_iff] at h1 h2 ⊢
  obtain ⟨l1, t1⟩ := h1
  obtain ⟨l2, t2⟩ := h2
  refine ⟨by omega, ?_⟩
  have h := t1
  rw [← t2, List.take_take, inf_eq_left.mpr l1] at h
  exact h

theorem isAncestor_take {k : Nat} {b : List String} (hk : k ≤ b.length) :
    isAncestor (b.take k) b = true := by
  rw [isAncestor_iff]
  constructor
  · rw [List.length_take]; omega
  · rw [List.length_take, inf_eq_left.mpr hk]

theorem isAncestor_eq_of_length {d f : List String} (h : isAncestor d f = true)
    (hl : f.length ≤ d.length) : d = f := by
  obtain ⟨h1, h2⟩ := (isAncestor_iff d f).mp h
  have hdf : d.length = f.length := le_antisymm h1 hl
  rw [hdf, List.take_length] at h2
  exact h2.symm

theorem isChildOf_take {d f : List String} (h : isAncestor d f = true)
    (hlt : d.length < f.length) : isChildOf (f.take (d.length + 1)) d = true := by
  have hlen : (f.take (d.length + 1)).length = d.length + 1 := by
    rw [List.length_take]; omega
  rw [isChildOf, Bool.and_eq_true, beq_iff_eq, hlen]
  refine ⟨rfl, ?_⟩
  rw [isAncestor_iff, hlen]
  refine ⟨by omega, ?_⟩
  rw [List.take_take, inf_eq_left.mpr (by omega : d.length ≤ d.length + 1)]
  exact ((isAncestor_iff d f).mp h).2

theorem isChildOf_ancestor {c d : List String} (h : isChildOf c d = true) :
    isAncestor d c = true := (Bool.and_eq_true .. ▸ h).2

theorem isChildOf_length {c d : List String} (h : isChildOf c d = true) :
    c.length = d.length + 1 := by
  have := (Bool.and_eq_true .. ▸ h).1
  exact Nat.beq_eq .. ▸ by simpa using this

theorem insertDepth_perm (d : List String) :
    ∀ l, (insertDepth d l).Perm (d :: l) := by
  intro l
  induction l with
  | nil => simp [insertDepth]
  | cons e rest ih =>
    by_cases h : e.length ≤ d.length
    · simp [insertDepth, h]
    · rw [insertDepth, if_neg h]
      exact (ih.cons e).trans (List.Perm.swap d e rest)

theorem sortDepthDesc_perm : ∀ l, (sortDepthDesc l).Perm l := by
  intro l
  induction l with
  | nil => simp [sortDepthDesc]
  | cons d rest ih =>
    exact (insertDepth_perm d (sortDepthDesc rest)).trans (ih.cons d)

theorem insertDepth_pairwise (d : List String) :
    ∀ l, l.Pairwise (fun a b => b.length ≤ a.length) →
      (insertDepth d l).Pairwise (fun a b => b.length ≤ a.length) := by
  intro l
  induction l with
  | nil => intro _; simp [insertDepth]
  | cons e rest ih =>
    intro hp
    obtain ⟨he, hrest⟩ := List.pairwise_cons.mp hp
    by_cases h : e.length ≤ d.length
    · rw [insertDepth, if_pos h]
      refine List.pairwise_cons.mpr ⟨?_, hp⟩
      intro x hx
      rcases List.mem_cons.mp hx with rfl | hx
      · exact h
      · exact le_trans (he x hx) h
    · rw [insertDepth, if_neg h]
      refine List.pairwise_cons.mpr ⟨?_, ih hrest⟩
      intro x hx
      rcases List.mem_cons.mp ((insertDepth_perm d rest).mem_iff.mp hx) with rfl | hx
      · omega
      · exact he x hx

theorem sortDepthDesc_pairwise :
    ∀ l, (sortDepthDesc l).Pairwise (fun a b => b.length ≤ a.length) := by
  intro l
  induction l with
  | nil => simp [sortDepthDesc]
  | cons d rest ih => exact insertDepth_pairwise d (sortDepthDesc rest) ih

theorem filter_erase_nodup (p : List String → Bool) :
    ∀ (l : List (List String)), l.Nodup → ∀ d : List String,
      (l.filter p).erase d = l.filter (fun c => p c && !(c == d)) := by
  intro l
  induction l with
  | nil => intro _ d; simp
  | cons a l ih =>
    intro hnd d
    obtain ⟨hal, hl⟩ := List.nodup_cons.mp hnd
    by_cases hpa : p a = true
    · by_cases had : a = d
      · subst had
        have h1 : (List.filter p (a :: l)).erase a = List.filter p l := by
          simp [List.filter_cons, hpa]
        have h2 : List.filter (fun c => p c && !(c == a)) (a :: l)
            = List.filter (fun c => p c && !(c == a)) l := by
          simp [List.filter_cons]
        rw [h1, h2]
        refine List.filter_congr ?_
        intro c hc
        have hca : (c == a) = false := beq_false_of_ne (fun hc' => hal (hc' ▸ hc))
        simp [hca]
      · have had' : (a == d) = false := beq_false_of_ne had
        have h1 : List.filter p (a :: l) = a :: List.filter p l := by
          simp [List.filter_cons, hpa]
        have h2 : List.filter (fun c => p c && !(c == d)) (a :: l)
            = a :: List.filter (fun c => p c && !(c == d)) l := by
          simp [List.filter_cons, hpa, had']
        rw [h1, h2, List.erase_cons_tail (by simp [had]), ih hl d]
    · have hpa' : p a = false := by simpa using hpa
      have h1 : List.filter p (a :: l) = List.filter p l := by
        simp [List.filter_cons, hpa']
      have h2 : List.filter (fun c => p c && !(c == d)) (a :: l)
          = List.filter (fun c => p c && !(c == d)) l := by
        simp [List.filter_cons, hpa']
      rw [h1, h2, ih hl d]

/-- Well-formedness of a directory-tree listing: directories are listed
once, every listed path is a proper non-root path, no file path doubles as a
directory path, and every proper ancestor of a file below the root is a
listed directory. -/
def WF (t : DirTree) : Prop :=
  t.dirs.Nodup ∧
  (∀ d ∈ t.dirs, d ≠ []) ∧
  (∀ f ∈ t.files, f ∉ t.dirs) ∧
  (∀ f ∈ t.files, ∀ k ∈ List.range f.length, 1 ≤ k → f.take k ∈ t.dirs)

theorem subtreeEmptyB_false_iff (files : List (List String)) (d : List String) :
    subtreeEmptyB files d = false ↔ ∃ f ∈ files, isAncestor d f = true := by
  simp [subtreeEmptyB, List.any_eq_true]

theorem subtreeEmptyB_true_iff (files : List (List String)) (d : List String) :
    subtreeEmptyB files d = true ↔ ∀ f ∈ files, isAncestor d f = false := by
  simp [subtreeEmptyB, List.any_eq_false]

/-- Characterization of one reaper pass without removal failures, processed
deepest-first over a snapshot of the still-present directories: it removes
exactly the subtree-empty directories, counts them, and signals whether it
removed any. -/
theorem reapPass_noFail_spec (files dirs0 : List (List String))
    (hnd : dirs0.Nodup)
    (hcl : ∀ f ∈ files, ∀ k ∈ List.range f.length, 1 ≤ k → f.take k ∈ dirs0)
    (hfd : ∀ f ∈ files, f ∉ dirs0) :
    ∀ (l : List (List String)) (t : DirTree),
      t.files = files →
      (∀ d ∈ l, d ∈ dirs0) →
      l.Nodup →
      l.Pairwise (fun a b => b.length ≤ a.length) →
      t.dirs = dirs0.filter (fun c => l.contains c || !subtreeEmptyB files c) →
      (reapPass noFail l t).1.dirs = dirs0.filter (fun c => !subtreeEmptyB files c)
        ∧ (reapPass noFail l t).1.files = files
        ∧ (reapPass noFail l t).2.1 = (l.filter (fun d => subtreeEmptyB files d)).length
        ∧ ((reapPass noFail l t).2.2 = true ↔
            l.filter (fun d => subtreeEmptyB files d) ≠ []) := by
  intro l
  induction l with
  | nil =>
    intro t htf _ _ _ hcur
    refine ⟨?_, htf, rfl, by simp [reapPass]⟩
    show t.dirs = _
    rw [hcur]
    refine List.filter_congr ?_
    intro c _
    simp
  | cons d rest ih =>
    intro t htf hsub hndl hpw hcur
    have hd0 : d ∈ dirs0 := hsub d (List.mem_cons_self d rest)
    have hdrest : d ∉ rest := (List.nodup_cons.mp hndl).1
    have hrc : rest.contains d = false := by simpa using hdrest
    have hpwd : ∀ x ∈ rest, x.length ≤ d.length := fun x hx =>
      (List.pairwise_cons.mp hpw).1 x hx
    have hm : d ∈ t.dirs := by
      rw [hcur]
      exact List.mem_filter.mpr ⟨hd0, by simp⟩
    have hmt : t.dirs.contains d = true := by simpa using hm
    by_cases hse : subtreeEmptyB files d = true
    · have hdirs_no : ∀ c ∈ t.dirs, isChildOf c d = false := by
        intro c hc
        rw [hcur] at hc
        obtain ⟨hc0, hcp⟩ := List.mem_filter.mp hc
        by_contra hch
        rw [Bool.not_eq_false] at hch
        have hlen := isChildOf_length hch
        have hanc := isChildOf_ancestor hch
        by_cases hin : c ∈ d :: rest
        · rcases List.mem_cons.mp hin with rfl | hcin
          · omega
          · have := hpwd c hcin; omega
        · have hne : subtreeEmptyB files c = false := by
            have hcontains : (d :: rest).contains c = false := by simpa using hin
            rw [hcontains] at hcp
            simpa using hcp
          obtain ⟨f, hf, hanc2⟩ := (subtreeEmptyB_false_iff files c).mp hne
          have hdf : isAncestor d f = true := isAncestor_trans hanc hanc2
          have := (subtreeEmptyB_true_iff files d).mp hse f hf
          simp_all
      have hfiles_no : ∀ f ∈ t.files, isChildOf f d = false := by
        intro f hf
        by_contra hch
        rw [Bool.not_eq_false] at hch
        have h1 := (subtreeEmptyB_true_iff files d).mp hse f (htf ▸ hf)
        have h2 := isChildOf_ancestor hch
        simp_all
      have hent : hasEntry t d = false := by
        simp only [hasEntry, Bool.or_eq_false_iff]
        exact ⟨List.any_eq_false.mpr (fun x hx => by simp [hdirs_no x hx]),
               List.any_eq_false.mpr (fun x hx => by simp [hfiles_no x hx])⟩
      have hcur' : t.dirs.erase d
          = dirs0.filter (fun c => rest.contains c || !subtreeEmptyB files c) := by
        rw [hcur, filter_erase_nodup _ dirs0 hnd d]
        refine List.filter_congr ?_
        intro c _
        by_cases hcd : c = d
        · subst hcd
          simp [hse, hdrest]
        · have hcd' : (c == d) = false := beq_false_of_ne hcd
          simp [hcd', hcd]
      obtain ⟨ih1, ih2, ih3, ih4⟩ := ih ⟨t.dirs.erase d, t.files⟩ htf
        (fun x hx => hsub x (List.mem_cons_of_mem d hx))
        (List.nodup_cons.mp hndl).2
        (List.pairwise_cons.mp hpw).2
        hcur'
      have hred : reapPass noFail (d :: rest) t
          = ((reapPass noFail rest ⟨t.dirs.erase d, t.files⟩).1,
             (reapPass noFail rest ⟨t.dirs.erase d, t.files⟩).2.1 + 1, true) := by
        simp only [reapPass, hmt, hent, noFail]
        simp
      rw [hred]
      have hfilterd : (d :: rest).filter (fun x => subtreeEmptyB files x)
          = d :: rest.filter (fun x => subtreeEmptyB files x) := by
        simp [List.filter_cons, hse]
      refine ⟨ih1, ih2, ?_, ?_⟩
      · simp only [hfilterd, List.length_cons, ih3]
      · simp [hfilterd]
    · have hse' : subtreeEmptyB files d = false := by simpa using hse
      obtain ⟨f, hf, hanc⟩ := (subtreeEmptyB_false_iff files d).mp hse'
      have hfd' : f ≠ d := fun h => hfd f hf (h ▸ hd0)
      have hlt : d.length < f.length := by
        have hle := isAncestor_length hanc
        rcases Nat.lt_or_ge d.length f.length with h | h
        · exact h
        · exact absurd (isAncestor_eq_of_length hanc h) (fun hh => hfd' hh.symm)
      have hent : hasEntry t d = true := by
        rw [hasEntry, Bool.or_eq_true]
        by_cases hchild : f.length = d.length + 1
        · refine Or.inr ?_
          rw [List.any_eq_true]
          refine ⟨f, htf ▸ hf, ?_⟩
          rw [isChildOf, Bool.and_eq_true]
          exact ⟨by simp [hchild], hanc⟩
        · refine Or.inl ?_
          rw [List.any_eq_true]
          have hklt : d.length + 1 < f.length := by omega
          refine ⟨f.take (d.length + 1), ?_, isChildOf_take hanc hlt⟩
          rw [hcur]
          refine List.mem_filter.mpr ⟨?_, ?_⟩
          · exact hcl f hf (d.length + 1) (List.mem_range.mpr hklt) (by omega)
          · have hfe : subtreeEmptyB files (f.take (d.length + 1)) = false :=
              (subtreeEmptyB_false_iff files _).mpr
                ⟨f, hf, isAncestor_take (by omega)⟩
            simp [hfe]
      have hcur2 : t.dirs
          = dirs0.filter (fun c => rest.contains c || !subtreeEmptyB files c) := by
        rw [hcur]
        refine List.filter_congr ?_
        intro c _
        by_cases hcd : c = d
        · subst hcd
          simp [hse', hdrest]
        · simp [hcd]
      obtain ⟨ih1, ih2, ih3, ih4⟩ := ih t htf
        (fun x hx => hsub x (List.mem_cons_of_mem d hx))
        (List.nodup_cons.mp hndl).2
        (List.pairwise_cons.mp hpw).2
        hcur2
      have hred : reapPass noFail (d :: rest) t = reapPass noFail rest t := by
        simp only [reapPass, hmt, hent]
        simp
      rw [hred]
      have hfilterd : (d :: rest).filter (fun x => subtreeEmptyB files x)
          = rest.filter (fun x => subtreeEmptyB files x) := by
        simp [List.filter_cons, hse']
      rw [hfilterd]
      exact ⟨ih1, ih2, ih3, ih4⟩

/-- Full characterization of `remove_empty_dirs` on a well-formed tree with
no removal failures: the first pass removes exactly the subtree-empty
directories (children before parents, thanks to the deepest-first order), the
second pass removes nothing and breaks the loop, files are untouched, and the
returned count is the number of removed directories. -/
theorem remove_empty_dirs_noFail (t : DirTree) (hwf : WF t) :
    remove_empty_dirs noFail t =
      some (⟨t.dirs.filter (fun d => !subtreeEmptyB t.files d), t.files⟩,
            (t.dirs.filter (fun d => subtreeEmptyB t.files d)).length) := by
  obtain ⟨hnd, hne, hfd, hcl⟩ := hwf
  have hperm := sortDepthDesc_perm t.dirs
  have hLnd : (sortDepthDesc t.dirs).Nodup := hperm.nodup_iff.mpr hnd
  have hLpw := sortDepthDesc_pairwise t.dirs
  have hsub : ∀ d ∈ sortDepthDesc t.dirs, d ∈ t.dirs := fun d hd => hperm.mem_iff.mp hd
  have hcur : t.dirs = t.dirs.filter
      (fun c => (sortDepthDesc t.dirs).contains c || !subtreeEmptyB t.files c) := by
    symm
    rw [List.filter_eq_self]
    intro a ha
    have : a ∈ sortDepthDesc t.dirs := hperm.mem_iff.mpr ha
    simp [this]
  obtain ⟨p1, p2, p3, p4⟩ := reapPass_noFail_spec t.files t.dirs hnd hcl hfd
    (sortDepthDesc t.dirs) t rfl hsub hLnd hLpw hcur
  have hcount : ((sortDepthDesc t.dirs).filter (fun d => subtreeEmptyB t.files d)).length
      = (t.dirs.filter (fun d => subtreeEmptyB t.files d)).length :=
    (hperm.filter _).length_eq
  rcases hp : reapPass noFail (sortDepthDesc t.dirs) t with ⟨t1, rest⟩
  rcases rest with ⟨n1, b1⟩
  rw [hp] at p1 p2 p3 p4
  simp only [] at p1 p2 p3 p4
  rcases t1 with ⟨t1d, t1f⟩
  simp only [] at p1 p2
  subst p1
  subst p2
  cases b1 with
  | false =>
    rw [remove_empty_dirs]
    have hlen1 : t.dirs.length + 1 = t.dirs.length + 1 := rfl
    rw [show t.dirs.length + 1 = t.dirs.length + 1 from rfl]
    simp only [reapLoop, hp]
    simp only [Bool.false_eq_true, if_false]
    rw [p3, hcount]
  | true =>
    have hremoved : (sortDepthDesc t.dirs).filter (fun d => subtreeEmptyB t.files d) ≠ [] :=
      p4.mp rfl
    have hdirs_ne : t.dirs ≠ [] := fun h => hremoved (by rw [h]; rfl)
    obtain ⟨k, hk⟩ : ∃ k, t.dirs.length = k + 1 :=
      ⟨t.dirs.length - 1, by
        have : 0 < t.dirs.length := List.length_pos.mpr hdirs_ne
        omega⟩
    -- well-formedness facts for the post-pass tree
    have hnd1 : (t.dirs.filter (fun d => !subtreeEmptyB t.files d)).Nodup := hnd.filter _
    have hcl1 : ∀ f ∈ t.files, ∀ j ∈ List.range f.length, 1 ≤ j →
        f.take j ∈ t.dirs.filter (fun d => !subtreeEmptyB t.files d) := by
      intro f hf j hj hj1
      refine List.mem_filter.mpr ⟨hcl f hf j hj hj1, ?_⟩
      have : subtreeEmptyB t.files (f.take j) = false :=
        (subtreeEmptyB_false_iff t.files _).mpr
          ⟨f, hf, isAncestor_take (by
            have := List.mem_range.mp hj
            omega)⟩
      simp [this]
    have hfd1 : ∀ f ∈ t.files, f ∉ t.dirs.filter (fun d => !subtreeEmptyB t.files d) := by
      intro f hf hmem
      exact hfd f hf (List.mem_filter.mp hmem).1
    have hperm1 := sortDepthDesc_perm (t.dirs.filter (fun d => !subtreeEmptyB t.files d))
    have hL1nd := hperm1.nodup_iff.mpr hnd1
    have hL1pw := sortDepthDesc_pairwise (t.dirs.filter (fun d => !subtreeEmptyB t.files d))
    have hsub1 : ∀ d ∈ sortDepthDesc (t.dirs.filter (fun d => !subtreeEmptyB t.files d)),
        d ∈ t.dirs.filter (fun d => !subtreeEmptyB t.files d) :=
      fun d hd => hperm1.mem_iff.mp hd
    have hcur1 : t.dirs.filter (fun d => !subtreeEmptyB t.files d)
        = (t.dirs.filter (fun d => !subtreeEmptyB t.files d)).filter
            (fun c => (sortDepthDesc (t.dirs.filter (fun d => !subtreeEmptyB t.files d))).contains c
              || !subtreeEmptyB t.files c) := by
      symm
      rw [List.filter_eq_self]
      intro a ha
      have : a ∈ sortDepthDesc (t.dirs.filter (fun d => !subtreeEmptyB t.files d)) :=
        hperm1.mem_iff.mpr ha
      simp [this]
    obtain ⟨q1, q2, q3, q4⟩ := reapPass_noFail_spec t.files
      (t.dirs.filter (fun d => !subtreeEmptyB t.files d)) hnd1 hcl1 hfd1
      (sortDepthDesc (t.dirs.filter (fun d => !subtreeEmptyB t.files d)))
      ⟨t.dirs.filter (fun d => !subtreeEmptyB t.files d), t.files⟩ rfl hsub1 hL1nd hL1pw hcur1
    -- nothing is left to remove after the first pass
    have hniled : (t.dirs.filter (fun d => !subtreeEmptyB t.files d)).filter
        (fun d => subtreeEmptyB t.files d) = [] := by
      rw [List.filter_eq_nil_iff]
      intro a ha
      have := (List.mem_filter.mp ha).2
      simp at this
      simp [this]
    have hnil1 : (sortDepthDesc (t.dirs.filter (fun d => !subtreeEmptyB t.files d))).filter
        (fun d => subtreeEmptyB t.files d) = [] := by
      have h := hperm1.filter (fun d => subtreeEmptyB t.files d)
      rw [hniled] at h
      exact h.eq_nil
    have hXfix : (t.dirs.filter (fun d => !subtreeEmptyB t.files d)).filter
        (fun d => !subtreeEmptyB t.files d)
        = t.dirs.filter (fun d => !subtreeEmptyB t.files d) := by
      rw [List.filter_eq_self]
      intro a ha
      exact (List.mem_filter.mp ha).2
    rw [hnil1] at q3 q4
    rcases hq : reapPass noFail
        (sortDepthDesc (t.dirs.filter (fun d => !subtreeEmptyB t.files d)))
        ⟨t.dirs.filter (fun d => !subtreeEmptyB t.files d), t.files⟩ with ⟨t2, rest2⟩
    rcases rest2 with ⟨n2, b2⟩
    rw [hq] at q1 q2 q3 q4
    simp only [] at q1 q2 q3 q4
    cases b2 with
    | true => exact absurd (q4.mp rfl) (by simp)
    | false =>
      rcases t2 with ⟨t2d, t2f⟩
      simp only [] at q1 q2
      rw [hXfix] at q1
      subst q1
      subst q2
      have hn2 : n2 = 0 := by simpa using q3
      subst hn2
      rw [remove_empty_dirs, hk]
      simp only [reapLoop, hp, hq]
      simp only [if_true]
      rw [p3, hcount]
      simp

/-! ### The claims -/

/-- Claim C1: over every run of the move executor (any file list,
configuration and starting filesystem), a step that moves a file chose a
destination that did not exist immediately prior to the move (no entry is
ever overwritten), and the only change any step makes to the filesystem is a
successful move, which adds that destination and removes exactly the moved
source — no source file is ever deleted without a corresponding successful
move. -/
theorem C1_no_overwrite_no_loss (root : String) (cfg : Config) (fs0 : List String)
    (files : List FileEntry) (s : Step) (hs : s ∈ runTrace root cfg fs0 files) :
    (∀ d, s.outcome = .movedTo d →
        s.pre.contains d = false ∧ s.post = d :: s.pre.erase s.file.path) ∧
    ((∀ d, s.outcome ≠ .movedTo d) → s.post = s.pre) := by
  have hstep := runTrace_step root cfg files fs0 s hs
  have hspec := processFile_spec root cfg s.pre s.file
  rw [hstep] at hspec
  constructor
  · intro d hd
    rw [hd] at hspec
    exact hspec
  · intro hnd
    rcases ho : s.outcome with d | _ | _ | _ | m
    · exact absurd ho (hnd d)
    · rw [ho] at hspec; exact hspec
    · rw [ho] at hspec; exact hspec
    · rw [ho] at hspec; exact hspec
    · rw [ho] at hspec; exact hspec.1

/-- The single file of the concrete run witnessing claim C1. -/
def c1File : FileEntry :=
  ⟨"r/x.txt", "x.txt", "x", ".txt", .ok ⟨none, ⟨2024, 3, 5⟩, 7⟩, none⟩

/-- The step that the concrete C1 run produces. -/
def c1Step : Step :=
  ⟨["r/x.txt"], c1File, .movedTo "r/2024_03_05/x.txt", ["r/2024_03_05/x.txt"]⟩

theorem C1_witness :
    (c1Step.pre.contains "r/2024_03_05/x.txt" = false
      ∧ c1Step.post = "r/2024_03_05/x.txt" :: c1Step.pre.erase c1Step.file.path) :=
  (C1_no_overwrite_no_loss "r" ⟨"YYYY_MM_DD", false, false, false⟩ ["r/x.txt"] [c1File]
    c1Step (by decide)).1 "r/2024_03_05/x.txt" (by decide)

/-- The file of claim C2's failing input: it already sits at its computed
destination `root/2024_03_05/a.txt`. -/
def c2File : FileEntry :=
  ⟨"root/2024_03_05/a.txt", "a.txt", "a", ".txt", .ok ⟨none, ⟨2024, 3, 5⟩, 5⟩, none⟩

/-- Claim C2 (code bug): re-running the engine on an already-sorted tree is
not a no-op.  For a file already at its computed destination, the candidate
`stem+suffix` *exists* (it is the source itself), so `_unique_dest_path`
skips past it to `stem_001+suffix`; the same-file check then compares the
source against that fresh name, never fires, and the worker RENAMES the
in-place file to `a_001.txt` (outcome moved, not skip) — contradicting the
code's own comment on line 194 and the spec's idempotence law. -/
theorem C2_rerun_renames_in_place_file :
    processFile "root" ⟨"YYYY_MM_DD", false, false, false⟩ ["root/2024_03_05/a.txt"] c2File
      = (.movedTo "root/2024_03_05/a_001.txt", ["root/2024_03_05/a_001.txt"])
    ∧ (runWorker "root" ⟨"YYYY_MM_DD", false, false, false⟩
        ["root/2024_03_05/a.txt"] [c2File]).moved = 1
    ∧ (runWorker "root" ⟨"YYYY_MM_DD", false, false, false⟩
        ["root/2024_03_05/a.txt"] [c2File]).skipped = 0 := by
  refine ⟨by decide, by decide, by decide⟩

/-- Claim C3 (refuted): collision resolution is not bounded by a fixed cap of
probe attempts.  With the 1001 names `a.txt`, `a_001.txt`, …, `a_1000.txt`
present, 1001 probes are exhausted without a free name being found and
without any skip being reported: the probe loop keeps going and returns
candidate `a_1001.txt`, which the worker then uses for a move. -/
theorem C3_counterexample :
    uniqueDestAux (collFs "d" "a" ".txt" 1000) "d" "a" ".txt" 1001 0 = none
    ∧ _unique_dest_path (collFs "d" "a" ".txt" 1000) "d" "a" ".txt" = "d/a_1001.txt" := by
  constructor
  · exact uniqueDestAux_collFs_none "d" "a" ".txt" 1000 1001 0 (by omega)
  · rw [unique_dest_path_collFs]
    decide

/-- Claim C3 (amended): the naming-probe loop of `_unique_dest_path` never
loops forever on a static filesystem — within `fs.length + 2` probes it
returns a candidate that does not exist — but no fixed probe cap bounds it:
for every bound there is a directory content that exhausts that many probes
with no free name found and no skip reported.  (The 1000-iteration bound
with the skip fallback belongs to the worker's separate pre-move
re-verification loop, `reverifyAux`.) -/
theorem C3_amended :
    (∀ (fs : List String) (dir stem suffix : String),
      ∃ c, uniqueDestAux fs dir stem suffix (fs.length + 2) 0 = some c
        ∧ fs.contains c = false) ∧
    (∀ cap : Nat, ∃ fs : List String,
      uniqueDestAux fs "d" "a" ".txt" (cap + 1) 0 = none) := by
  constructor
  · intro fs dir stem suffix
    rcases h : uniqueDestAux fs dir stem suffix (fs.length + 2) 0 with _ | c
    · exact absurd (h ▸ uniqueDestAux_isSome fs dir stem suffix) (by simp)
    · exact ⟨c, rfl, (uniqueDestAux_eq_some fs dir stem suffix _ 0 c h).1⟩
  · intro cap
    exact ⟨collFs "d" "a" ".txt" cap,
      uniqueDestAux_collFs_none "d" "a" ".txt" cap (cap + 1) 0 (by omega)⟩

theorem bucketOf_eq (n : Nat) :
    bucketOf n = if n ≥ 100 then n / 100 * 100 else if n ≥ 10 then n / 10 * 10 else 1 := by
  unfold bucketOf
  by_cases h1 : n ≥ 100 <;> by_cases h2 : n ≥ 10 <;> by_cases h3 : n ≥ 1 <;>
    simp [h1, h2, h3]

/-- The exact-arithmetic reading of the size bucketer follows the spec's
round-down rule at every byte count.  The float-faithful reading
`get_size_folder_name_f64` does not: binary64 rounding of the quotient can
cross a bucket boundary once the quotient needs more than 53 significant
bits. -/
theorem size_bucketer_exact_arith_rule (size_bytes : Nat) :
    get_size_folder_name size_bytes = sizeLabelSpec size_bytes := by
  unfold get_size_folder_name sizeLabelSpec
  by_cases h0 : size_bytes < 1024
  · simp [h0]
  · have h0' : 1024 ≤ size_bytes := by omega
    by_cases h3 : (1073741824 : Nat) ≤ size_bytes
    · simp [h0, h3, sizeTiers, List.find?, bucketOf_eq]
    · by_cases h2 : (1048576 : Nat) ≤ size_bytes
      · simp [h0, h2, h3, sizeTiers, List.find?, bucketOf_eq]
      · simp [h0, h0', h2, h3, sizeTiers, List.find?, bucketOf_eq]

/-- Claim C4 (code bug, evaluated at the failing input): the size bucketer
does not follow the round-down rule for every byte count.  For a sparse
file of 10^7·2^30 − 1 bytes (≈ 10.7 PB) the true quotient 10^7 − 2^-30 is
rounded by binary64 round-half-even up to exactly 10^7, so the program
labels the file "10000000 ГБ" — while the claimed rule rounds
n = 9999999 down to the nearest lower multiple of 100, giving
"9999900 ГБ", as both the spec-worded rule and the exact-arithmetic model
do. -/
theorem C4_float_divergence :
    fdivRNE (10 ^ 7 * 2 ^ 30 - 1) (2 ^ 30) = 10 ^ 7 * 2 ^ 52
    ∧ get_size_folder_name_f64 (10 ^ 7 * 2 ^ 30 - 1) = "10000000 ГБ"
    ∧ sizeLabelSpec (10 ^ 7 * 2 ^ 30 - 1) = "9999900 ГБ"
    ∧ get_size_folder_name (10 ^ 7 * 2 ^ 30 - 1) = "9999900 ГБ"
    ∧ get_size_folder_name_f64 (10 ^ 7 * 2 ^ 30 - 1)
        ≠ get_size_folder_name (10 ^ 7 * 2 ^ 30 - 1) :=
  ⟨by decide, by decide, by decide, by decide, by decide⟩

/-- Claim C5 (refuted): a file of exactly 2,400,000 bytes is not put in a
"2 МБ" folder: `n = 2400000 / 1024² ≈ 2.29` falls in the `1 ≤ n < 10`
branch, whose bucket value is the constant 1, so the label is "1 МБ". -/
theorem C5_counterexample : get_size_folder_name 2400000 ≠ "2 МБ" := by decide

/-- Claim C5 (amended): a file of exactly 2,400,000 bytes, with size-grouping
enabled, is placed in the size folder labelled with bucket value 1 — the
"1 МБ" folder — as the last path component of its planned destination
directory. -/
theorem C5_amended (root : String) (cfg : Config) (folder_name suffix : String)
    (hsz : cfg.sort_by_size = true) :
    get_size_folder_name 2400000 = "1 МБ" ∧
    ∃ d1, destDirFor root cfg folder_name suffix 2400000 = d1 ++ "/" ++ "1 МБ" := by
  constructor
  · decide
  · unfold destDirFor
    simp only [hsz, if_true]
    exact ⟨_, by rw [show get_size_folder_name 2400000 = "1 МБ" from by decide]⟩

theorem C5_witness :
    get_size_folder_name 2400000 = "1 МБ" ∧
    ∃ d1, destDirFor "r" ⟨"YYYY_MM_DD", false, true, false⟩ "2024_03_05" ".txt" 2400000
        = d1 ++ "/" ++ "1 МБ" :=
  C5_amended "r" ⟨"YYYY_MM_DD", false, true, false⟩ "2024_03_05" ".txt" rfl

/-- Claim C6 (refuted at a concrete input): the timestamp resolver does not
return normally for *every* file path — when `Path.stat()` itself fails
(line 45 sits outside the `try:` block; e.g. the file vanished), the error
propagates to the caller. -/
theorem C6_counterexample :
    get_file_date (.error "FileNotFoundError") true = .error "FileNotFoundError" := rfl

/-- Claim C6 (amended): whenever `stat()` succeeds the resolver returns
normally; in particular, when creation time is unsupported (`st_birthtime`
absent) or its read fails, it falls back to the modification time.  Only a
failure of `stat()` itself propagates to the caller. -/
theorem C6_amended :
    (∀ (st : FileStat) (uc : Bool), ∃ d, get_file_date (.ok st) uc = .ok d) ∧
    (∀ st : FileStat, (st.birthtime = none ∨ ∃ u, st.birthtime = some (.error u)) →
      get_file_date (.ok st) true = .ok st.mtime) ∧
    (∀ (e : String) (uc : Bool), get_file_date (.error e) uc = .error e) := by
  refine ⟨?_, ?_, ?_⟩
  · intro st uc
    cases uc
    · exact ⟨st.mtime, rfl⟩
    · rcases hb : st.birthtime with _ | eb
      · exact ⟨st.mtime, by simp [get_file_date, hb]⟩
      · rcases eb with u | d
        · exact ⟨st.mtime, by simp [get_file_date, hb]⟩
        · exact ⟨d, by simp [get_file_date, hb]⟩
  · intro st h
    rcases h with h | ⟨u, h⟩ <;> simp [get_file_date, h]
  · intro e uc; rfl

theorem C6_witness :
    get_file_date (.ok ⟨none, ⟨2024, 3, 5⟩, 7⟩) true = .ok (⟨2024, 3, 5⟩ : Date) :=
  C6_amended.2.1 ⟨none, ⟨2024, 3, 5⟩, 7⟩ (Or.inl rfl)

/-- Claim C7: when an exception is raised while processing a file (a failing
`stat()` during date resolution, or a failing move), that step records an
error message carrying the file's name and the error text, leaves the
filesystem unchanged (the source file untouched), the message lands in the
run's error tally, and the batch still processes every file of the list —
one per-file failure never aborts the batch. -/
theorem C7_per_file_errors (root : String) (cfg : Config) (fs0 : List String)
    (files : List FileEntry) (s : Step) (m : String)
    (hs : s ∈ runTrace root cfg fs0 files) (hm : s.outcome = .errored m) :
    s.post = s.pre ∧ (∃ e, m = s.file.name ++ ": " ++ e) ∧
    m ∈ (runWorker root cfg fs0 files).errors ∧
    (runTrace root cfg fs0 files).length = files.length := by
  have hstep := runTrace_step root cfg files fs0 s hs
  have hspec := processFile_spec root cfg s.pre s.file
  rw [hstep, hm] at hspec
  refine ⟨hspec.1, hspec.2, ?_, runTrace_length root cfg files fs0⟩
  rw [runWorker, runWorker_errors_aux root cfg files fs0 0 0 []]
  simp only [List.nil_append]
  exact List.mem_filterMap.mpr ⟨s, hs, by rw [hm]⟩

/-- The single file of the concrete run witnessing claim C7: its move raises
a permission error. -/
def c7File : FileEntry :=
  ⟨"r/y.txt", "y.txt", "y", ".txt", .ok ⟨none, ⟨2024, 3, 5⟩, 7⟩, some "Permission denied"⟩

/-- The step that the concrete C7 run produces. -/
def c7Step : Step :=
  ⟨["r/y.txt"], c7File, .errored "y.txt: Permission denied", ["r/y.txt"]⟩

theorem C7_witness :
    c7Step.post = c7Step.pre
    ∧ (∃ e, "y.txt: Permission denied" = c7Step.file.name ++ ": " ++ e)
    ∧ "y.txt: Permission denied"
        ∈ (runWorker "r" ⟨"YYYY_MM_DD", false, false, false⟩ ["r/y.txt"] [c7File]).errors
    ∧ (runTrace "r" ⟨"YYYY_MM_DD", false, false, false⟩ ["r/y.txt"] [c7File]).length
        = [c7File].length :=
  C7_per_file_errors "r" ⟨"YYYY_MM_DD", false, false, false⟩ ["r/y.txt"] [c7File]
    c7Step "y.txt: Permission denied" (by decide) (by decide)

/-- Claim C8: on a well-formed tree and with no removal failures, the reaper
removes a directory if and only if it is hereditarily empty (it has zero
entries once its empty descendants are removed — equivalently, no file lies
in its subtree), never removes the root (the root `[]` is never listed as a
candidate and is not among the removed directories), leaves the files
untouched, and returns the count of removed directories. -/
theorem C8_reaper (t : DirTree) (hwf : WF t) :
    remove_empty_dirs noFail t =
      some (⟨t.dirs.filter (fun d => !subtreeEmptyB t.files d), t.files⟩,
            (t.dirs.filter (fun d => subtreeEmptyB t.files d)).length)
    ∧ [] ∉ t.dirs.filter (fun d => subtreeEmptyB t.files d) := by
  refine ⟨remove_empty_dirs_noFail t hwf, ?_⟩
  intro hmem
  exact hwf.2.1 [] (List.mem_filter.mp hmem).1 rfl

/-- The concrete tree witnessing claim C8: `e/x` and `e` are hereditarily
empty (and `e` only becomes entryless after `e/x` is removed), while `p`
holds a file. -/
def c8Tree : DirTree := ⟨[["e"], ["e", "x"], ["p"]], [["p", "f"]]⟩

theorem C8_witness :
    remove_empty_dirs noFail c8Tree = some (⟨[["p"]], [["p", "f"]]⟩, 2)
    ∧ [] ∉ c8Tree.dirs.filter (fun d => subtreeEmptyB c8Tree.files d) := by
  have h := C8_reaper c8Tree ⟨by decide, by decide, by decide, by decide⟩
  refine ⟨?_, h.2⟩
  rw [h.1]
  rfl

/-- Claim C9: every input file advances exactly one of the three tallies, so
the final report always satisfies moved + skipped + errors = total. -/
theorem C9_tally_partition (root : String) (cfg : Config) (fs0 : List String)
    (files : List FileEntry) :
    (runWorker root cfg fs0 files).moved + (runWorker root cfg fs0 files).skipped
      + (runWorker root cfg fs0 files).errors.length = files.length := by
  rw [runWorker]
  have := runWorker_counts_aux root cfg files ⟨fs0, 0, 0, []⟩
  simpa using this

/-- Claim C10: the reaper terminates on every finite directory tree and for
every pattern of per-directory removal failures: a pass that removes nothing
breaks the loop, a pass that removes anything strictly decreases the finite
number of directories, so the fuel `dirs.length + 1` always reaches the
break. -/
theorem C10_reaper_terminates (rmfail : List String → Bool) (t : DirTree) :
    (remove_empty_dirs rmfail t).isSome = true :=
  remove_empty_dirs_isSome rmfail t

end SortingFiles
